import Mathlib

/-
Verification development for the Search-Engine repository (C++ crawler and
indexer).  The relevant program fragments are shallowly embedded below:

* `create_warc_header`, `warc_full_record` — src/cpp/crawler/src/warc_writer.cpp
* `find4`, `strip_warc_header`            — src/cpp/indexer/src/main.cpp (header strip)
* `tokenize`                              — src/cpp/indexer/src/main.cpp and utils.cpp
* `clean_text`                            — src/cpp/indexer/src/main.cpp and utils.cpp
* `mergeStep`                             — src/cpp/indexer/src/main.cpp (posting merge)
* `cppStoi`                               — std::stoi as used in the indexer main loop
* `writer_append`, `write_all`            — WarcWriter::write_record offset accounting
* `crawler_step`                          — src/cpp/crawler/src/main.cpp main loop body
* `build_db_conn_str_main` / `_utils`     — the two build_db_conn_str variants
* `main_inflate_loop` / `utils_inflate_loop` — the two decompress_gzip variants

Byte strings are modelled as `List Char`; every byte the programs handle in the
verified fragments is ASCII, where it is not (opaque payload bytes) only
equality and length matter, so the identification of bytes with characters is
faithful.
-/

/-- CRLF line ending. -/
def crlf : List Char := ['\r', '\n']

/-- The CRLF CRLF separator terminating a WARC header block. -/
def crlfcrlf : List Char := ['\r', '\n', '\r', '\n']

/-- Fuel-indexed helper for `decChars`; the fuel is structural so the
function evaluates by reduction.  `decChars` always supplies enough fuel. -/
def decCharsAux (fuel n : Nat) : List Char :=
  match fuel with
  | 0 => []
  | fuel + 1 =>
    if n < 10 then [Char.ofNat (48 + n)]
    else decCharsAux fuel (n / 10) ++ [Char.ofNat (48 + n % 10)]

/-- Decimal rendering of a natural number, as produced by the C++ stream
insertion `ss << content_length` (warc_writer.cpp line 70) and by
`std::to_string` (indexer main.cpp line 247). -/
def decChars (n : Nat) : List Char := decCharsAux (n + 1) n

/-- `WarcWriter::create_warc_header` (src/cpp/crawler/src/warc_writer.cpp,
lines 51-73).  The date and the uuid are produced at run time (strftime over
gmtime, and generate_uuid); they are passed as parameters here. -/
def create_warc_header (url date uuid : List Char) (content_length : Nat) :
    List Char :=
  "WARC/1.0\r\n".data ++
  "WARC-Type: response\r\n".data ++
  "WARC-Target-URI: ".data ++ url ++ crlf ++
  "WARC-Date: ".data ++ date ++ crlf ++
  "WARC-Record-ID: <urn:uuid:".data ++ uuid ++ ">\r\n".data ++
  "Content-Type: application/http; msgtype=response\r\n".data ++
  "Content-Length: ".data ++ decChars content_length ++ crlf ++
  crlf

/-- The full uncompressed record built by `WarcWriter::write_record`
(warc_writer.cpp line 29): `header + content + "\r\n\r\n"`. -/
def warc_full_record (url content date uuid : List Char) : List Char :=
  create_warc_header url date uuid content.length ++ content ++ crlfcrlf

/-- Index of the first occurrence of `"\r\n\r\n"`, as computed by
`full_warc_record.find("\r\n\r\n")` in src/cpp/indexer/src/main.cpp line 221. -/
def find4 : List Char → Option Nat
  | [] => none
  | c :: rest =>
    if c = '\r' ∧ rest.take 3 = ['\n', '\r', '\n'] then some 0
    else (find4 rest).map (· + 1)

/-- Payload extraction in the indexer main loop (src/cpp/indexer/src/main.cpp,
lines 221-224): locate the first CRLF CRLF and keep everything after it; a
record without CRLF CRLF is skipped (`none`). -/
def strip_warc_header (record : List Char) : Option (List Char) :=
  match find4 record with
  | none => none
  | some i => some (record.drop (i + 4))

/-- Lines joined by a CRLF between consecutive lines (no trailing CRLF);
helper to restate the header block as a list of lines. -/
def sepBetween : List (List Char) → List Char
  | [] => []
  | [l] => l
  | l :: l₂ :: ls => l ++ crlf ++ sepBetween (l₂ :: ls)

/-- The seven header lines written by `create_warc_header`, in source order. -/
def warc_header_lines (url date uuid : List Char) (content_length : Nat) :
    List (List Char) :=
  [ "WARC/1.0".data,
    "WARC-Type: response".data,
    "WARC-Target-URI: ".data ++ url,
    "WARC-Date: ".data ++ date,
    "WARC-Record-ID: <urn:uuid:".data ++ uuid ++ ">".data,
    "Content-Type: application/http; msgtype=response".data,
    "Content-Length: ".data ++ decChars content_length ]

/-- Offset/length pair returned by the writer (warc_writer.hpp lines 12-15). -/
structure WarcRecordInfo where
  offset : Nat
  length : Nat
deriving DecidableEq

/-- The file append performed by `WarcWriter::write_record` (warc_writer.cpp
lines 32-48): seek to end, capture the current position as the offset, append
the compressed bytes, and return `(offset, size of compressed bytes)`.  The
archive file is modelled as its byte sequence. -/
def writer_append (file compressed : List Char) : List Char × WarcRecordInfo :=
  (file ++ compressed, ⟨file.length, compressed.length⟩)

/-- A sequence of successful `write_record` calls on one archive file, given
the compressed bytes of each record; returns the final file and the
`WarcRecordInfo` returned by each call, in order. -/
def write_all (file : List Char) : List (List Char) → List Char × List WarcRecordInfo
  | [] => (file, [])
  | r :: rs =>
    let fi := writer_append file r
    let rest := write_all fi.1 rs
    (rest.1, fi.2 :: rest.2)

/-- The indexer's exact-range read (indexer main.cpp lines 203-215): seek to
`off`, read `len` bytes. -/
def read_slice (file : List Char) (off len : Nat) : List Char :=
  (file.drop off).take len

/-- Reference description of the infos returned by consecutive writes
starting at file position `off`: each record starts where the previous one
ended. -/
def infosFrom (off : Nat) : List (List Char) → List WarcRecordInfo
  | [] => []
  | r :: rs => ⟨off, r.length⟩ :: infosFrom (off + r.length) rs

/-- C-locale `isalnum` on an unsigned byte, as used by the tokenizer
(indexer main.cpp line 110 / utils.cpp line 104): ASCII digits and letters. -/
def isalnumA (c : Char) : Bool := c.isDigit || c.isUpper || c.isLower

/-- C-locale `tolower` on an unsigned byte (indexer main.cpp line 111):
ASCII uppercase letters map to lowercase, everything else is unchanged. -/
def toLowerA (c : Char) : Char :=
  if c.isUpper then Char.ofNat (c.toNat + 32) else c

/-- The tokenizer loop of `tokenize` (indexer main.cpp lines 106-119 /
utils.cpp lines 100-113), with the current token buffer made explicit:
alphanumeric bytes are lowercased and appended to the buffer; any other byte
flushes a non-empty buffer, emitting it iff its length exceeds 2; the
trailing buffer is flushed under the same rule. -/
def tokenizeAux : List Char → List Char → List (List Char)
  | buf, [] => if 2 < buf.length then [buf] else []
  | buf, c :: cs =>
    if isalnumA c then tokenizeAux (buf ++ [toLowerA c]) cs
    else if buf ≠ [] then
      (if 2 < buf.length then [buf] else []) ++ tokenizeAux [] cs
    else tokenizeAux [] cs

/-- `tokenize` (indexer main.cpp lines 106-119 / utils.cpp lines 100-113). -/
def tokenize (text : List Char) : List (List Char) := tokenizeAux [] text

/-- The maximal runs of consecutive alphanumeric bytes of a byte string, in
text order (reference description used to characterize `tokenize`). -/
def alnumRuns : List Char → List (List Char)
  | [] => []
  | c :: cs =>
    if isalnumA c then
      (c :: cs.takeWhile isalnumA) :: alnumRuns (cs.dropWhile isalnumA)
    else alnumRuns cs
termination_by l => l.length
decreasing_by
  · simp only [List.length_cons]
    exact Nat.lt_succ_of_le (List.Sublist.length_le (List.dropWhile_sublist _))
  · simp

/-- Gumbo DOM node as observed by `clean_text`: a text node with its literal
text, an element with a tag and children, or any other node kind
(whitespace, comment, cdata, document, template). -/
inductive GNode where
  | text (t : List Char)
  | element (tag : String) (children : List GNode)
  | other

mutual

/-- `clean_text` (indexer main.cpp lines 47-65 / utils.cpp lines 37-55): a
text node yields its literal text; an element that is not `script`/`style`
concatenates its children, prepending `" "` before every non-first child
whose extracted text is non-empty; everything else yields `""`. -/
def clean_text : GNode → List Char
  | .text t => t
  | .other => []
  | .element tag children =>
    if tag = "script" ∨ tag = "style" then []
    else cleanChildren children true

/-- The child loop of `clean_text` (main.cpp lines 54-61): `isFirst` tracks
`i == 0`. -/
def cleanChildren : List GNode → Bool → List Char
  | [], _ => []
  | ch :: rest, isFirst =>
    (if isFirst = false ∧ clean_text ch ≠ [] then [' '] else []) ++
      clean_text ch ++ cleanChildren rest false

end

/-- The space-prepending join actually computed by the child loop: the first
child's string verbatim, then each later child's string with a single space
prepended iff it is non-empty. -/
def idxJoin : List (List Char) → List Char
  | [] => []
  | s :: ss => s ++ (ss.map (fun t => if t = [] then [] else ' ' :: t)).join

/-- Single-space intercalation of a list of strings. -/
def intercalateSpace : List (List Char) → List Char
  | [] => []
  | [s] => s
  | s :: s₂ :: ss => s ++ ' ' :: intercalateSpace (s₂ :: ss)

/-- The join described by the spec sentence: the non-empty child strings
separated by exactly one space (empty strings dropped). -/
def specJoin (ss : List (List Char)) : List Char :=
  intercalateSpace (ss.filter (fun s => !s.isEmpty))

/-- Whether `pat` is a prefix of `s` (byte-wise). -/
def startsWithSeq : List Char → List Char → Bool
  | [], _ => true
  | _ :: _, [] => false
  | a :: pat, b :: s => a = b && startsWithSeq pat s

/-- Whether `pat` occurs as a contiguous substring of `s`. -/
def containsSeq (pat : List Char) : List Char → Bool
  | [] => pat.isEmpty
  | c :: rest => startsWithSeq pat (c :: rest) || containsSeq pat rest

/-- `std::getline(ss, id, ',')` splitting as in the posting decode loop
(indexer main.cpp lines 240-244): plain split at every comma. -/
def splitC : List Char → List (List Char)
  | [] => [[]]
  | c :: cs =>
    let r := splitC cs
    if c = ',' then [] :: r
    else
      match r with
      | [] => [[c]]
      | h :: t => (c :: h) :: t

/-- The segments produced by repeated `std::getline` with delimiter `,`:
a final empty segment (empty input, or input ending in the delimiter) is not
produced because the last `getline` call fails at end of stream. -/
def getlineSplit (s : List Char) : List (List Char) :=
  let p := splitC s
  if p.getLast? = some [] then p.dropLast else p

/-- Byte-wise lexicographic strict order on strings, the `std::less` used by
`std::set<std::string>`. -/
def lexLt : List Char → List Char → Bool
  | [], [] => false
  | [], _ :: _ => true
  | _ :: _, [] => false
  | a :: as, b :: bs =>
    if a < b then true else if b < a then false else lexLt as bs

/-- `std::set<std::string>::insert`: the set is kept as its sorted,
duplicate-free element list. -/
def setInsert (x : List Char) : List (List Char) → List (List Char)
  | [] => [x]
  | y :: ys =>
    if lexLt x y then x :: y :: ys
    else if x = y then y :: ys
    else y :: setInsert x ys

/-- Inserting every element of a list into an (initially empty) set, as the
decode loop of indexer main.cpp lines 238-245 does. -/
def setOfList (l : List (List Char)) : List (List Char) :=
  l.foldl (fun s x => setInsert x s) []

/-- The encode loop of indexer main.cpp lines 250-254: elements joined by a
single comma, first element bare. -/
def joinComma : List (List Char) → List Char
  | [] => []
  | [x] => x
  | x :: x₂ :: xs => x ++ ',' :: joinComma (x₂ :: xs)

/-- Decode of the current posting value (indexer main.cpp lines 236-245):
parsed only when Get succeeded and the value is non-empty. -/
def decodePosting (v : Option (List Char)) : List (List Char) :=
  match v with
  | some s => if s ≠ [] then setOfList (getlineSplit s) else []
  | none => []

/-- The RocksDB key-value store observed through Get/Put. -/
def KVStore := List Char → Option (List Char)

/-- The per-token posting merge step (indexer main.cpp lines 234-256): Get,
decode to a set, skip when the doc id is already present, otherwise insert
and Put the re-encoded set.  The Bool records whether a Put was performed. -/
def mergeStep (store : KVStore) (token : List Char) (docId : Nat) :
    KVStore × Bool :=
  let doc_ids := decodePosting (store token)
  let ds := decChars docId
  if ds ∈ doc_ids then (store, false)
  else
    let newList := joinComma (setInsert ds doc_ids)
    (fun k => if k = token then some newList else store k, true)

/-- `get_env_or_default` (indexer main.cpp lines 21-24 / utils.cpp 12-15);
the environment is modelled as a partial map from variable name to value. -/
def get_env_or_default (env : String → Option String) (var d : String) : String :=
  (env var).getD d

/-- `build_db_conn_str` of the indexer entry file (indexer main.cpp lines
28-40): with `DB_CONN_STR` absent, every component falls back to a default,
including the password `password123`. -/
def build_db_conn_str_main (env : String → Option String) : String :=
  match env "DB_CONN_STR" with
  | some s => s
  | none =>
    let db_name := get_env_or_default env "DB_NAME" "search_engine"
    let db_user := get_env_or_default env "DB_USER" "admin"
    let db_pass := get_env_or_default env "DB_PASS" "password123"
    let db_host := get_env_or_default env "DB_HOST" "postgres_service"
    let db_port := get_env_or_default env "DB_PORT" "5432"
    "dbname=" ++ db_name ++ " user=" ++ db_user ++ " password=" ++ db_pass ++
      " host=" ++ db_host ++ " port=" ++ db_port

/-- `indexer::build_db_conn_str` (indexer utils.cpp lines 17-35): `DB_PASS`
is required; a runtime error is thrown when it is absent. -/
def build_db_conn_str_utils (env : String → Option String) :
    Except String String :=
  match env "DB_CONN_STR" with
  | some s => .ok s
  | none =>
    let db_name := get_env_or_default env "DB_NAME" "search_engine"
    let db_user := get_env_or_default env "DB_USER" "admin"
    match env "DB_PASS" with
    | none => .error "DB_PASS environment variable is required"
    | some db_pass =>
      let db_host := get_env_or_default env "DB_HOST" "postgres_service"
      let db_port := get_env_or_default env "DB_PORT" "5432"
      .ok ("dbname=" ++ db_name ++ " user=" ++ db_user ++ " password=" ++
        db_pass ++ " host=" ++ db_host ++ " port=" ++ db_port)

/-- The 100 MiB decompression bound of `indexer::decompress_gzip`
(utils.cpp line 62). -/
def MAX_DECOMPRESSED_SIZE : Nat := 100 * 1024 * 1024

/-- The inflate loop of `decompress_gzip` in the indexer entry file (indexer
main.cpp lines 88-99), on a well-formed gzip stream abstracted as the chunk
outputs of successive `inflate` calls (each at most the 32 KiB buffer): the
output is accumulated with no size check. -/
def main_inflate_loop : List (List Char) → List Char → Except String (List Char)
  | [], acc => .ok acc
  | c :: cs, acc => main_inflate_loop cs (acc ++ c)

/-- The inflate loop of `indexer::decompress_gzip` (utils.cpp lines 79-94):
after each chunk is appended the accumulated size is checked against the
100 MiB bound and an error is thrown when it is exceeded. -/
def utils_inflate_loop : List (List Char) → List Char → Except String (List Char)
  | [], acc => .ok acc
  | c :: cs, acc =>
    if MAX_DECOMPRESSED_SIZE < (acc ++ c).length then
      .error "Decompressed data exceeds maximum allowed size"
    else utils_inflate_loop cs (acc ++ c)

/-- Document row states written by the crawler (crawler main.cpp). -/
inductive DocStatus where
  | processing | crawled | crawled_not_queued
deriving DecidableEq

/-- A row of the `documents` table as the crawler writes it. -/
structure DocRow where
  id : Nat
  url : List Char
  status : DocStatus
  file_path : Option (List Char)
  offset : Option Nat
  length : Option Nat
deriving DecidableEq

/-- The shared state one crawler iteration can touch: the documents table,
the WARC archive bytes, and the indexing queue. -/
structure CrawlState where
  docs : List DocRow
  warc : List Char
  indexq : List (List Char)
deriving DecidableEq

/-- Observable side effects of one crawler iteration that the duplicate-URL
claim is about: invoking the HTTP fetch. -/
inductive CrawlEvent where
  | fetched (url : List Char)
deriving DecidableEq

/-- `is_valid_url` (crawler main.cpp lines 57-62). -/
def is_valid_url (url : List Char) : Bool :=
  if url.length < 10 then false
  else if url.take 7 = "http://".data then true
  else if url.take 8 = "https://".data then true
  else false

/-- The id the database serial assigns to the next inserted row. -/
def nextId (docs : List DocRow) : Nat :=
  (docs.map DocRow.id).foldr max 0 + 1

/-- The reserve step `INSERT ... ON CONFLICT (url) DO NOTHING RETURNING id`
(crawler main.cpp lines 170-184): nothing when the url is already present,
otherwise a fresh id and the new `processing` row. -/
def reserve (docs : List DocRow) (url : List Char) :
    Option (Nat × List DocRow) :=
  if docs.any (fun r => r.url == url) then none
  else
    let id := nextId docs
    some (id, docs ++ [⟨id, url, .processing, none, none, none⟩])

/-- The `mark_crawled` update (crawler main.cpp lines 202-207). -/
def markCrawled (docs : List DocRow) (id : Nat) (basename : List Char)
    (off len : Nat) : List DocRow :=
  docs.map fun r =>
    if r.id = id then
      { r with
        status := DocStatus.crawled
        file_path := some basename
        offset := some off
        length := some len }
    else r

/-- One iteration of the crawler loop for a popped url (crawler main.cpp
lines 160-250), with the HTTP fetch and the gzip compression supplied as
oracles; a `fetched` event is recorded when `download_url` is invoked.  An
empty fetch result is the fetch-failure path (row stays `processing`). -/
def crawler_step (fetch : List Char → List Char)
    (compress : List Char → List Char) (date uuid basename : List Char)
    (st : CrawlState) (url : List Char) : CrawlState × List CrawlEvent :=
  if ¬ is_valid_url url then (st, [])
  else
    match reserve st.docs url with
    | none => (st, [])
    | some (id, docs₁) =>
      let html := fetch url
      if html = [] then ({ st with docs := docs₁ }, [.fetched url])
      else
        let record := compress (warc_full_record url html date uuid)
        let fi := writer_append st.warc record
        let docs₂ := markCrawled docs₁ id basename fi.2.offset fi.2.length
        ({ docs := docs₂, warc := fi.1, indexq := st.indexq ++ [decChars id] },
          [.fetched url])

/-- C-locale `isspace`, the whitespace skipped by `strtol`/`std::stoi`. -/
def isSpaceC (c : Char) : Bool :=
  c = ' ' || c = '\t' || c = '\n' || c = '\x0b' || c = '\x0c' || c = '\r'

/-- Numeric value of a run of decimal digit characters. -/
def natOfDigits (l : List Char) : Nat :=
  l.foldl (fun acc c => acc * 10 + (c.toNat - 48)) 0

/-- `std::stoi` as called at indexer main.cpp line 184: skip C-locale
whitespace, an optional single sign, then a maximal non-empty run of decimal
digits; further characters are ignored.  No digits → `invalid_argument`,
value outside the 32-bit int range → `out_of_range`; both exceptions are
caught by the indexer, which drops the queue item (`none`). -/
def cppStoi (s : List Char) : Option Int :=
  let t := s.dropWhile isSpaceC
  let neg : Bool := t.head? = some '-'
  let t₂ := if t.head? = some '-' ∨ t.head? = some '+' then t.tail else t
  let digits := t₂.takeWhile Char.isDigit
  if digits = [] then none
  else
    let v : Int := (if neg then -1 else 1) * (natOfDigits digits : Int)
    if -2147483648 ≤ v ∧ v ≤ 2147483647 then some v else none

set_option maxRecDepth 8192

lemma decCharsAux_ne_cr (fuel : Nat) : ∀ (n : Nat), ∀ c ∈ decCharsAux fuel n, c ≠ '\r' := by
  induction fuel with
  | zero => intro n c hc; simp [decCharsAux] at hc
  | succ fuel ih =>
    intro n c hc
    by_cases h : n < 10
    · simp [decCharsAux, h] at hc
      subst hc
      interval_cases n <;> decide
    · simp [decCharsAux, h] at hc
      rcases hc with hc | hc
      · exact ih _ c hc
      · subst hc
        have h10 : n % 10 < 10 := Nat.mod_lt _ (by omega)
        set k := n % 10 with hk
        interval_cases k <;> decide

lemma decChars_ne_cr (n : Nat) : ∀ c ∈ decChars n, c ≠ '\r' :=
  decCharsAux_ne_cr (n + 1) n

lemma find4_cons_not_cr {c : Char} (h : c ≠ '\r') (t : List Char) :
    find4 (c :: t) = (find4 t).map (· + 1) := by
  simp [find4, h]

lemma find4_append_no_cr {l : List Char} (h : ∀ c ∈ l, c ≠ '\r') (t : List Char) :
    find4 (l ++ t) = (find4 t).map (· + l.length) := by
  induction l with
  | nil => simp
  | cons c cs ih =>
    rw [List.cons_append, find4_cons_not_cr (h c (by simp)),
      ih (fun x hx => h x (by simp [hx]))]
    cases find4 t <;> simp <;> omega

lemma find4_crlfcrlf (t : List Char) : find4 (crlfcrlf ++ t) = some 0 := by
  rfl

lemma find4_crlf_cons {c : Char} (hc : c ≠ '\r') (t : List Char) :
    find4 ('\r' :: '\n' :: c :: t) = (find4 (c :: t)).map (· + 2) := by
  rw [show find4 ('\r' :: '\n' :: c :: t) =
      (find4 ('\n' :: c :: t)).map (· + 1) from by simp [find4, hc],
    find4_cons_not_cr (by decide) (c :: t)]
  cases find4 (c :: t) <;> simp <;> omega

lemma sepBetween_cons_ex (l : List Char) (ls : List (List Char)) :
    ∃ t, sepBetween (l :: ls) = l ++ t := by
  cases ls with
  | nil => exact ⟨[], by simp [sepBetween]⟩
  | cons l₂ ls₂ => exact ⟨crlf ++ sepBetween (l₂ :: ls₂), by simp [sepBetween]⟩

lemma find4_sepBetween (ls : List (List Char)) (rest : List Char)
    (hne : ∀ l ∈ ls, l ≠ []) (hcr : ∀ l ∈ ls, ∀ c ∈ l, c ≠ '\r') :
    find4 (sepBetween ls ++ crlfcrlf ++ rest) = some (sepBetween ls).length := by
  induction ls with
  | nil => simpa [sepBetween] using find4_crlfcrlf rest
  | cons l ls ih =>
    cases ls with
    | nil =>
      rw [show sepBetween [l] = l from rfl, List.append_assoc,
        find4_append_no_cr (hcr l (by simp)) (crlfcrlf ++ rest), find4_crlfcrlf]
      simp
    | cons l₂ ls₂ =>
      obtain ⟨tl, hS⟩ := sepBetween_cons_ex l₂ ls₂
      obtain ⟨c, l₂', hl₂⟩ := List.exists_cons_of_ne_nil (hne l₂ (by simp))
      have hcne : c ≠ '\r' := hcr l₂ (by simp) c (by simp [hl₂])
      have hx : sepBetween (l₂ :: ls₂) ++ crlfcrlf ++ rest =
          c :: (l₂' ++ tl ++ crlfcrlf ++ rest) := by
        rw [hS, hl₂]; simp
      have hrec := ih (fun x h => hne x (by simp [h]))
        (fun x h => hcr x (by simp [h]))
      have key : sepBetween (l :: l₂ :: ls₂) ++ crlfcrlf ++ rest =
          l ++ ('\r' :: '\n' :: (c :: (l₂' ++ tl ++ crlfcrlf ++ rest))) := by
        rw [show sepBetween (l :: l₂ :: ls₂) = l ++ crlf ++ sepBetween (l₂ :: ls₂)
            from rfl, ← hx, hS, hl₂]
        simp [crlf]
      rw [key, find4_append_no_cr (hcr l (by simp)), find4_crlf_cons hcne, ← hx,
        hrec]
      simp [sepBetween, crlf]
      omega

lemma warc_full_record_eq_lines (url content date uuid : List Char) :
    warc_full_record url content date uuid =
      sepBetween (warc_header_lines url date uuid content.length) ++ crlfcrlf ++
        (content ++ crlfcrlf) := by
  simp only [warc_full_record, create_warc_header, warc_header_lines, sepBetween,
    crlf, crlfcrlf, List.append_assoc]
  rfl

lemma warc_header_lines_ne_nil (url date uuid : List Char) (n : Nat) :
    ∀ l ∈ warc_header_lines url date uuid n, l ≠ [] := by
  intro l hl
  simp only [warc_header_lines, List.mem_cons, List.not_mem_nil, or_false] at hl
  rcases hl with h | h | h | h | h | h | h <;> subst h <;> simp

lemma warc_header_lines_ne_cr (url date uuid : List Char) (n : Nat)
    (hurl : ∀ c ∈ url, c ≠ '\r') (hdate : ∀ c ∈ date, c ≠ '\r')
    (huuid : ∀ c ∈ uuid, c ≠ '\r') :
    ∀ l ∈ warc_header_lines url date uuid n, ∀ c ∈ l, c ≠ '\r' := by
  intro l hl c hc
  simp only [warc_header_lines, List.mem_cons, List.not_mem_nil, or_false] at hl
  rcases hl with h | h | h | h | h | h | h <;> subst h
  · exact (by decide : ∀ x ∈ "WARC/1.0".data, x ≠ '\r') c hc
  · exact (by decide : ∀ x ∈ "WARC-Type: response".data, x ≠ '\r') c hc
  · rcases List.mem_append.1 hc with hc | hc
    · exact (by decide : ∀ x ∈ "WARC-Target-URI: ".data, x ≠ '\r') c hc
    · exact hurl c hc
  · rcases List.mem_append.1 hc with hc | hc
    · exact (by decide : ∀ x ∈ "WARC-Date: ".data, x ≠ '\r') c hc
    · exact hdate c hc
  · rcases List.mem_append.1 hc with hc | hc
    · rcases List.mem_append.1 hc with hc | hc
      · exact (by decide : ∀ x ∈ "WARC-Record-ID: <urn:uuid:".data, x ≠ '\r') c hc
      · exact huuid c hc
    · exact (by decide : ∀ x ∈ ">".data, x ≠ '\r') c hc
  · exact (by decide :
      ∀ x ∈ "Content-Type: application/http; msgtype=response".data, x ≠ '\r') c hc
  · rcases List.mem_append.1 hc with hc | hc
    · exact (by decide : ∀ x ∈ "Content-Length: ".data, x ≠ '\r') c hc
    · exact decChars_ne_cr n c hc

/-- General form of the indexer's header strip applied to a record built by
the writer: the payload kept by the indexer is the content followed by the
trailing CRLF CRLF. -/
lemma strip_warc_full_record (url content date uuid : List Char)
    (hurl : ∀ c ∈ url, c ≠ '\r') (hdate : ∀ c ∈ date, c ≠ '\r')
    (huuid : ∀ c ∈ uuid, c ≠ '\r') :
    strip_warc_header (warc_full_record url content date uuid) =
      some (content ++ crlfcrlf) := by
  unfold strip_warc_header
  rw [warc_full_record_eq_lines,
    find4_sepBetween _ _ (warc_header_lines_ne_nil url date uuid _)
      (warc_header_lines_ne_cr url date uuid _ hurl hdate huuid)]
  dsimp only
  rw [show (sepBetween (warc_header_lines url date uuid content.length)).length
        + 4 = (sepBetween (warc_header_lines url date uuid content.length) ++
          crlfcrlf).length from by simp [crlfcrlf],
    List.drop_left]

lemma read_slice_append (file c : List Char) :
    read_slice (file ++ c) file.length c.length = c := by
  unfold read_slice
  rw [List.drop_left, List.take_length]

example : decChars 4 = ['4'] := by decide
example : decChars 1234 = ['1', '2', '3', '4'] := by decide
example : find4 "ab\r\n\r\ncd".data = some 2 := by decide
example : strip_warc_header "ab\r\n\r\ncd".data = some ['c', 'd'] := by decide
example :
    strip_warc_header (warc_full_record "http://a/".data "BODY".data
      "2024-01-01T00:00:00Z".data "00000000-0000-4000-8000-000000000000".data) =
      some "BODY\r\n\r\n".data := by decide

/-- C1 (counterexample): the claim says the indexer's read + decompress +
header-strip yields exactly `body`; in fact for `url = "http://a/"`,
`body = "BODY"` the strip of the written record yields `"BODY\r\n\r\n"`,
which differs from `body`. -/
theorem c1_roundtrip_counterexample :
    strip_warc_header (warc_full_record "http://a/".data "BODY".data
        "2024-01-01T00:00:00Z".data "00000000-0000-4000-8000-000000000000".data) =
      some "BODY\r\n\r\n".data ∧
    ("BODY\r\n\r\n".data : List Char) ≠ "BODY".data := by
  exact ⟨by decide, by decide⟩

/-- C1 (amended): for every record written by `write_record(url, body)` (url,
date and uuid free of CR, as produced at run time), reading back `length`
bytes at `offset`, decompressing (gzip is an external lossless codec, modelled
by any `compress`/`decompress` pair with `decompress ∘ compress = id`) and
taking everything after the first CRLF CRLF yields `body ++ "\r\n\r\n"`, i.e.
the body followed by the record's trailing CRLF CRLF — not exactly `body`. -/
theorem c1_roundtrip_amended
    (compress decompress : List Char → List Char)
    (hcodec : ∀ s, decompress (compress s) = s)
    (file url body date uuid : List Char)
    (hurl : ∀ c ∈ url, c ≠ '\r') (hdate : ∀ c ∈ date, c ≠ '\r')
    (huuid : ∀ c ∈ uuid, c ≠ '\r') :
    strip_warc_header (decompress (read_slice
      (writer_append file (compress (warc_full_record url body date uuid))).1
      (writer_append file (compress (warc_full_record url body date uuid))).2.offset
      (writer_append file (compress (warc_full_record url body date uuid))).2.length)) =
      some (body ++ crlfcrlf) := by
  rw [show (writer_append file (compress (warc_full_record url body date uuid))).1 =
      file ++ compress (warc_full_record url body date uuid) from rfl,
    show (writer_append file (compress (warc_full_record url body date uuid))).2.offset =
      file.length from rfl,
    show (writer_append file (compress (warc_full_record url body date uuid))).2.length =
      (compress (warc_full_record url body date uuid)).length from rfl,
    read_slice_append, hcodec,
    strip_warc_full_record url body date uuid hurl hdate huuid]

/-- C1 (witness for the amended theorem), at the identity codec, an initially
empty archive and concrete url, body, date and uuid. -/
theorem c1_roundtrip_amended_witness :
    strip_warc_header (id (read_slice
      (writer_append [] (id (warc_full_record "http://a/".data "BODY".data
        "2024-01-01T00:00:00Z".data
        "00000000-0000-4000-8000-000000000000".data))).1
      (writer_append [] (id (warc_full_record "http://a/".data "BODY".data
        "2024-01-01T00:00:00Z".data
        "00000000-0000-4000-8000-000000000000".data))).2.offset
      (writer_append [] (id (warc_full_record "http://a/".data "BODY".data
        "2024-01-01T00:00:00Z".data
        "00000000-0000-4000-8000-000000000000".data))).2.length)) =
      some ("BODY".data ++ crlfcrlf) :=
  c1_roundtrip_amended id id (fun _ => rfl) [] "http://a/".data "BODY".data
    "2024-01-01T00:00:00Z".data "00000000-0000-4000-8000-000000000000".data
    (by decide) (by decide) (by decide)

lemma write_all_file (file : List Char) (rs : List (List Char)) :
    (write_all file rs).1 = file ++ rs.join := by
  induction rs generalizing file with
  | nil => simp [write_all]
  | cons r rs ih => simp [write_all, writer_append, ih]

lemma write_all_infos (file : List Char) (rs : List (List Char)) :
    (write_all file rs).2 = infosFrom file.length rs := by
  induction rs generalizing file with
  | nil => simp [write_all, infosFrom]
  | cons r rs ih =>
    simp [write_all, writer_append, infosFrom, ih]

lemma infosFrom_map_length (off : Nat) (rs : List (List Char)) :
    (infosFrom off rs).map WarcRecordInfo.length = rs.map List.length := by
  induction rs generalizing off with
  | nil => simp [infosFrom]
  | cons r rs ih => simp [infosFrom, ih]

lemma infosFrom_offset_le (off : Nat) (rs : List (List Char)) :
    ∀ i ∈ infosFrom off rs, off ≤ i.offset := by
  induction rs generalizing off with
  | nil => simp [infosFrom]
  | cons r rs ih =>
    intro i hi
    simp only [infosFrom, List.mem_cons] at hi
    rcases hi with hi | hi
    · subst hi; exact le_refl _
    · exact le_trans (by omega) (ih (off + r.length) i hi)

lemma infosFrom_chain (off : Nat) (rs : List (List Char))
    (hne : ∀ r ∈ rs, r ≠ []) :
    List.Chain' (fun a b => a.offset < b.offset ∧ b.offset = a.offset + a.length)
      (infosFrom off rs) := by
  induction rs generalizing off with
  | nil => simp [infosFrom]
  | cons r rs ih =>
    cases rs with
    | nil => simp [infosFrom]
    | cons r₂ rs₂ =>
      rw [show infosFrom off (r :: r₂ :: rs₂) =
        ⟨off, r.length⟩ :: infosFrom (off + r.length) (r₂ :: rs₂) from rfl]
      rw [show infosFrom (off + r.length) (r₂ :: rs₂) =
        ⟨off + r.length, r₂.length⟩ ::
          infosFrom (off + r.length + r₂.length) rs₂ from rfl]
      rw [List.chain'_cons]
      constructor
      · have hr : 0 < r.length := List.length_pos.2 (hne r (by simp))
        refine ⟨?_, rfl⟩
        show off < off + r.length
        omega
      · rw [show (⟨off + r.length, r₂.length⟩ : WarcRecordInfo) ::
            infosFrom (off + r.length + r₂.length) rs₂ =
          infosFrom (off + r.length) (r₂ :: rs₂) from rfl]
        exact ih (off + r.length) (fun x hx => hne x (by simp [hx]))

lemma infosFrom_pairwise (off : Nat) (rs : List (List Char))
    (hne : ∀ r ∈ rs, r ≠ []) :
    List.Pairwise (fun a b => a.offset < b.offset) (infosFrom off rs) := by
  induction rs generalizing off with
  | nil => simp [infosFrom]
  | cons r rs ih =>
    rw [show infosFrom off (r :: rs) =
      ⟨off, r.length⟩ :: infosFrom (off + r.length) rs from rfl]
    constructor
    · intro i hi
      have h1 := infosFrom_offset_le (off + r.length) rs i hi
      have h2 : 0 < r.length := List.length_pos.2 (hne r (by simp))
      show off < i.offset
      omega
    · exact ih (off + r.length) (fun x hx => hne x (by simp [hx]))

lemma infosFrom_getLast (off : Nat) (rs : List (List Char)) :
    ∀ last, (infosFrom off rs).getLast? = some last →
      off + rs.join.length = last.offset + last.length := by
  induction rs generalizing off with
  | nil => intro last h; simp [infosFrom] at h
  | cons r rs ih =>
    intro last h
    cases rs with
    | nil =>
      simp only [infosFrom, List.getLast?_singleton, Option.some.injEq] at h
      subst h
      simp [infosFrom]
    | cons r₂ rs₂ =>
      rw [show infosFrom off (r :: r₂ :: rs₂) =
          ⟨off, r.length⟩ :: ⟨off + r.length, r₂.length⟩ ::
            infosFrom (off + r.length + r₂.length) rs₂ from rfl,
        List.getLast?_cons_cons,
        show (⟨off + r.length, r₂.length⟩ : WarcRecordInfo) ::
            infosFrom (off + r.length + r₂.length) rs₂ =
          infosFrom (off + r.length) (r₂ :: rs₂) from rfl] at h
      have := ih (off + r.length) last h
      simp only [List.join_cons, List.length_append] at this ⊢
      omega

/-- C4: for every sequence of successful writes on a fresh archive, each
returned length is the compressed record's size, consecutive offsets satisfy
`o_i < o_{i+1}` and `o_{i+1} = o_i + length_i` (hence all offsets are strictly
increasing), and the final file size is `o_N + length_N`. -/
theorem c4_write_record_offsets (rs : List (List Char)) (hne : ∀ r ∈ rs, r ≠ []) :
    (write_all [] rs).2.map WarcRecordInfo.length = rs.map List.length ∧
    List.Chain' (fun a b => a.offset < b.offset ∧ b.offset = a.offset + a.length)
      (write_all [] rs).2 ∧
    List.Pairwise (fun a b => a.offset < b.offset) (write_all [] rs).2 ∧
    ∀ last, (write_all [] rs).2.getLast? = some last →
      (write_all [] rs).1.length = last.offset + last.length := by
  rw [write_all_infos, write_all_file]
  refine ⟨infosFrom_map_length _ rs, infosFrom_chain _ rs hne,
    infosFrom_pairwise _ rs hne, ?_⟩
  intro last h
  have := infosFrom_getLast ([] : List Char).length rs last h
  simpa using this

/-- C4 (witness): two concrete records of sizes 1 and 2 on a fresh archive. -/
theorem c4_write_record_offsets_witness :
    (write_all [] ["a".data, "bc".data]).2.map WarcRecordInfo.length =
      ["a".data, "bc".data].map List.length ∧
    List.Chain' (fun a b => a.offset < b.offset ∧ b.offset = a.offset + a.length)
      (write_all [] ["a".data, "bc".data]).2 ∧
    (write_all [] ["a".data, "bc".data]).1.length = 1 + 2 := by
  have h := c4_write_record_offsets ["a".data, "bc".data] (by decide)
  exact ⟨h.1, h.2.1, h.2.2.2 ⟨1, 2⟩ (by decide)⟩

/-- C3: the record built by `write_record` is exactly the seven WARC header
fields in source order, CRLF-terminated, a blank line, then the content and a
final CRLF CRLF; the `Content-Length` value is the decimal byte length of the
content, so for content `"BODY"` the `Content-Length` line is
`"Content-Length: 4"` and the record ends with `"BODY\r\n\r\n"`. -/
theorem c3_warc_record_structure :
    (∀ url content date uuid : List Char,
      warc_full_record url content date uuid =
        sepBetween (warc_header_lines url date uuid content.length) ++ crlfcrlf
          ++ (content ++ crlfcrlf)) ∧
    (∀ url body date uuid : List Char,
      ∃ p, warc_full_record url body date uuid = p ++ body ++ crlfcrlf) ∧
    (∀ url date uuid : List Char,
      warc_header_lines url date uuid "BODY".data.length =
        [ "WARC/1.0".data,
          "WARC-Type: response".data,
          "WARC-Target-URI: ".data ++ url,
          "WARC-Date: ".data ++ date,
          "WARC-Record-ID: <urn:uuid:".data ++ uuid ++ ">".data,
          "Content-Type: application/http; msgtype=response".data,
          "Content-Length: 4".data ]) := by
  refine ⟨warc_full_record_eq_lines, ?_, ?_⟩
  · intro url body date uuid
    exact ⟨create_warc_header url date uuid body.length, rfl⟩
  · intro url date uuid
    have h4 : "Content-Length: ".data ++ decChars "BODY".data.length =
        "Content-Length: 4".data := by decide
    simp only [warc_header_lines, h4]

lemma tokenizeAux_alnum_run (run : List Char) (h : ∀ c ∈ run, isalnumA c = true) :
    ∀ buf rest, tokenizeAux buf (run ++ rest) =
      tokenizeAux (buf ++ run.map toLowerA) rest := by
  induction run with
  | nil => intro buf rest; simp
  | cons c run ih =>
    intro buf rest
    rw [List.cons_append,
      show tokenizeAux buf (c :: (run ++ rest)) =
        tokenizeAux (buf ++ [toLowerA c]) (run ++ rest) from by
          simp [tokenizeAux, h c (by simp)],
      ih (fun x hx => h x (by simp [hx]))]
    simp

lemma tokenizeAux_not_alnum (buf : List Char) {c : Char} (cs : List Char)
    (h : isalnumA c = false) :
    tokenizeAux buf (c :: cs) =
      (if 2 < buf.length then [buf] else []) ++ tokenizeAux [] cs := by
  by_cases hb : buf = []
  · subst hb; simp [tokenizeAux, h]
  · simp [tokenizeAux, h, hb]

lemma tokenize_eq_runs (t : List Char) :
    tokenize t =
      ((alnumRuns t).filter (fun r => 2 < r.length)).map (List.map toLowerA) := by
  suffices H : ∀ n (t : List Char), t.length ≤ n → tokenize t =
      ((alnumRuns t).filter (fun r => 2 < r.length)).map (List.map toLowerA) from
    H t.length t le_rfl
  intro n
  induction n with
  | zero =>
    intro t ht
    rw [List.length_eq_zero.mp (Nat.le_zero.mp ht)]
    simp [tokenize, tokenizeAux, alnumRuns]
  | succ n ihn =>
    intro t ht
    cases t with
    | nil => simp [tokenize, tokenizeAux, alnumRuns]
    | cons c cs =>
      by_cases hc : isalnumA c = true
      · have hrun : ∀ x ∈ c :: cs.takeWhile isalnumA, isalnumA x = true := by
          intro x hx
          rcases List.mem_cons.1 hx with h | h
          · subst h; exact hc
          · exact List.mem_takeWhile_imp h
        have hsplit : c :: cs =
            (c :: cs.takeWhile isalnumA) ++ cs.dropWhile isalnumA := by
          simp [List.takeWhile_append_dropWhile]
        have hL : tokenize (c :: cs) =
            tokenizeAux ((c :: cs.takeWhile isalnumA).map toLowerA)
              (cs.dropWhile isalnumA) := by
          show tokenizeAux [] (c :: cs) = _
          rw [show tokenizeAux [] (c :: cs) =
              tokenizeAux [] ((c :: cs.takeWhile isalnumA) ++
                cs.dropWhile isalnumA) from by rw [← hsplit],
            tokenizeAux_alnum_run _ hrun [] _]
          simp
        have hR : alnumRuns (c :: cs) =
            (c :: cs.takeWhile isalnumA) :: alnumRuns (cs.dropWhile isalnumA) := by
          simp [alnumRuns, hc]
        cases hr : cs.dropWhile isalnumA with
        | nil =>
          rw [hL, hr, hR, hr]
          show (if 2 < ((c :: cs.takeWhile isalnumA).map toLowerA).length then
              [(c :: cs.takeWhile isalnumA).map toLowerA] else []) = _
          by_cases h2 : 2 < (cs.takeWhile isalnumA).length + 1
          · simp [alnumRuns, List.filter_cons, h2]
          · simp [alnumRuns, List.filter_cons, h2]
        | cons d ds =>
          have hd : isalnumA d = false := by
            have hw : cs.dropWhile isalnumA ≠ [] := by simp [hr]
            have := List.head_dropWhile_not isalnumA cs hw
            rwa [show (cs.dropWhile isalnumA).head hw = d from by
              simp [hr]] at this
          have hlen : ds.length ≤ n := by
            have h1 := congrArg List.length hsplit
            rw [hr] at h1
            simp only [List.length_cons, List.length_append] at h1 ht
            omega
          rw [hL, hr, tokenizeAux_not_alnum _ ds hd,
            show tokenizeAux [] ds = tokenize ds from rfl, ihn ds hlen, hR, hr,
            show alnumRuns (d :: ds) = alnumRuns ds from by simp [alnumRuns, hd]]
          by_cases h2 : 2 < (cs.takeWhile isalnumA).length + 1
          · simp [List.filter_cons, h2]
          · simp [List.filter_cons, h2]
      · have hstep : tokenize (c :: cs) = tokenize cs := by
          show tokenizeAux [] (c :: cs) = tokenizeAux [] cs
          rw [tokenizeAux_not_alnum [] cs (by simpa using hc)]
          simp
        rw [hstep, ihn cs (by simp only [List.length_cons] at ht; omega),
          show alnumRuns (c :: cs) = alnumRuns cs from by
            simp [alnumRuns, hc]]

/-- C5: the tokenizer emits exactly the maximal runs of ASCII-alphanumeric
bytes, lowercased, in text order, and a run is emitted iff its length is at
least 3 (the trailing run included); on the spec's example input it yields
["hello", "world", "abc", "123"]. -/
theorem c5_tokenizer :
    (∀ text : List Char,
      tokenize text =
        ((alnumRuns text).filter (fun r => 2 < r.length)).map
          (List.map toLowerA)) ∧
    tokenize "Hello, WORLD! a ab abc 123 <b>x</b>y".data =
      ["hello".data, "world".data, "abc".data, "123".data] :=
  ⟨tokenize_eq_runs, by decide⟩

lemma idxJoin_eq_inter (s : List Char) (rs : List (List Char)) :
    idxJoin (s :: rs) =
      intercalateSpace (s :: rs.filter (fun t => !t.isEmpty)) := by
  induction rs generalizing s with
  | nil => simp [idxJoin, intercalateSpace]
  | cons r rs ih =>
    by_cases hr : r = []
    · subst hr
      have h1 : idxJoin (s :: [] :: rs) = idxJoin (s :: rs) := by
        simp [idxJoin]
      rw [h1, ih s]
      simp [List.filter_cons]
    · have h1 : idxJoin (s :: r :: rs) = s ++ ' ' :: idxJoin (r :: rs) := by
        simp [idxJoin, hr]
      have h2 : List.filter (fun t => !t.isEmpty) (r :: rs) =
          r :: rs.filter (fun t => !t.isEmpty) := by
        simp [List.filter_cons, hr]
      rw [h1, ih r, h2]
      rfl

lemma cleanChildren_false (l : List GNode) :
    cleanChildren l false =
      ((l.map clean_text).map (fun t => if t = [] then [] else ' ' :: t)).join := by
  induction l with
  | nil => simp [cleanChildren]
  | cons x xs ihx =>
    rw [show cleanChildren (x :: xs) false =
        (if clean_text x ≠ [] then [' '] else []) ++ clean_text x ++
          cleanChildren xs false from by simp [cleanChildren], ihx]
    by_cases hx : clean_text x = []
    · simp [hx]
    · simp [hx]

lemma clean_text_element (tag : String) (children : List GNode)
    (h : ¬(tag = "script" ∨ tag = "style")) :
    clean_text (.element tag children) = idxJoin (children.map clean_text) := by
  cases children with
  | nil => simp [clean_text, cleanChildren, idxJoin, h]
  | cons ch rest =>
    rw [show clean_text (.element tag (ch :: rest)) =
        cleanChildren (ch :: rest) true from by simp [clean_text, h],
      show cleanChildren (ch :: rest) true =
        clean_text ch ++ cleanChildren rest false from by simp [cleanChildren],
      cleanChildren_false rest]
    simp [idxJoin]

/-- C6 (counterexample): the claim says a non-script/style element's value is
its children's strings joined with single spaces between non-empty strings;
for a first child extracting to `""` followed by a non-empty one, the code
emits a leading space: `clean_text` yields `" hi"`, the spec's join `"hi"`. -/
theorem c6_clean_text_counterexample :
    clean_text (.element "div" [.element "script" [], .text "hi".data]) =
      " hi".data ∧
    specJoin ([GNode.element "script" [], GNode.text "hi".data].map clean_text) =
      "hi".data ∧
    (" hi".data : List Char) ≠ "hi".data := by
  refine ⟨by decide, by decide, by decide⟩

/-- C6 (amended): text nodes yield their literal text; `script`/`style`
elements and any other node kind yield `""`; any other element yields its
children's extracted strings where every non-first child string gets one
leading space iff it is non-empty (`idxJoin`).  This equals the spec's
single-space join of the non-empty child strings whenever the first child
string is non-empty, and carries one extra leading space when the first
child string is empty and a later one is non-empty.  On the spec's example
DOM the result contains `Hi` and `there` but neither `alert` nor `1`. -/
theorem c6_clean_text_amended :
    (∀ t, clean_text (.text t) = t) ∧
    (∀ tag children, (tag = "script" ∨ tag = "style") →
      clean_text (.element tag children) = []) ∧
    clean_text .other = [] ∧
    (∀ tag children, ¬(tag = "script" ∨ tag = "style") →
      clean_text (.element tag children) = idxJoin (children.map clean_text)) ∧
    (∀ s rs, s ≠ [] → idxJoin (s :: rs) = specJoin (s :: rs)) ∧
    (∀ rs : List (List Char), idxJoin ([] :: rs) =
      if rs.filter (fun t => !t.isEmpty) = [] then []
      else ' ' :: specJoin ([] :: rs)) ∧
    (containsSeq "Hi".data (clean_text (.element "html" [.element "body"
      [.text "Hi ".data, .element "script" [.text "alert(1)".data],
        .element "b" [.text "there".data]]])) = true ∧
     containsSeq "there".data (clean_text (.element "html" [.element "body"
      [.text "Hi ".data, .element "script" [.text "alert(1)".data],
        .element "b" [.text "there".data]]])) = true ∧
     containsSeq "alert".data (clean_text (.element "html" [.element "body"
      [.text "Hi ".data, .element "script" [.text "alert(1)".data],
        .element "b" [.text "there".data]]])) = false ∧
     containsSeq "1".data (clean_text (.element "html" [.element "body"
      [.text "Hi ".data, .element "script" [.text "alert(1)".data],
        .element "b" [.text "there".data]]])) = false) := by
  refine ⟨fun t => rfl, ?_, rfl, clean_text_element, ?_, ?_,
    by decide, by decide, by decide, by decide⟩
  · intro tag children h
    simp [clean_text, h]
  · intro s rs hs
    rw [idxJoin_eq_inter, specJoin,
      show List.filter (fun t => !t.isEmpty) (s :: rs) =
        s :: rs.filter (fun t => !t.isEmpty) from by simp [List.filter_cons, hs]]
  · intro rs
    rw [idxJoin_eq_inter, specJoin,
      show List.filter (fun t => !t.isEmpty) ([] :: rs) =
        rs.filter (fun t => !t.isEmpty) from by simp [List.filter_cons]]
    cases hf : rs.filter (fun t => !t.isEmpty) with
    | nil => simp [intercalateSpace]
    | cons f fs => simp [intercalateSpace]

/-- C6 (witness for the amended theorem): each hypothesis-bearing conjunct
applied at a concrete input. -/
theorem c6_clean_text_amended_witness :
    clean_text (.element "script" [.text "zz".data]) = [] ∧
    clean_text (.element "div" [.text "ab".data]) =
      idxJoin ([GNode.text "ab".data].map clean_text) ∧
    idxJoin ["ab".data, "cd".data] = specJoin ["ab".data, "cd".data] :=
  ⟨c6_clean_text_amended.2.1 "script" [.text "zz".data] (Or.inl rfl),
   c6_clean_text_amended.2.2.2.1 "div" [.text "ab".data] (by decide),
   c6_clean_text_amended.2.2.2.2.1 "ab".data ["cd".data] (by decide)⟩

lemma main_inflate_loop_ok (cs : List (List Char)) :
    ∀ acc, main_inflate_loop cs acc = .ok (acc ++ cs.join) := by
  induction cs with
  | nil => intro acc; simp [main_inflate_loop]
  | cons c cs ih =>
    intro acc
    rw [show main_inflate_loop (c :: cs) acc = main_inflate_loop cs (acc ++ c)
      from rfl, ih (acc ++ c)]
    simp

lemma utils_inflate_loop_exceeds (cs : List (List Char)) :
    ∀ acc, acc.length ≤ MAX_DECOMPRESSED_SIZE →
      MAX_DECOMPRESSED_SIZE < acc.length + cs.join.length →
      utils_inflate_loop cs acc =
        .error "Decompressed data exceeds maximum allowed size" := by
  induction cs with
  | nil => intro acc h1 h2; simp at h2; omega
  | cons c cs ih =>
    intro acc h1 h2
    by_cases hx : MAX_DECOMPRESSED_SIZE < (acc ++ c).length
    · rw [show utils_inflate_loop (c :: cs) acc =
          if MAX_DECOMPRESSED_SIZE < (acc ++ c).length then
            .error "Decompressed data exceeds maximum allowed size"
          else utils_inflate_loop cs (acc ++ c) from rfl,
        if_pos hx]
    · rw [show utils_inflate_loop (c :: cs) acc =
          if MAX_DECOMPRESSED_SIZE < (acc ++ c).length then
            .error "Decompressed data exceeds maximum allowed size"
          else utils_inflate_loop cs (acc ++ c) from rfl,
        if_neg hx]
      apply ih (acc ++ c)
      · simp at hx ⊢; omega
      · simp at h2 ⊢; omega

lemma utils_inflate_loop_ok (cs : List (List Char)) :
    ∀ acc, acc.length + cs.join.length ≤ MAX_DECOMPRESSED_SIZE →
      utils_inflate_loop cs acc = .ok (acc ++ cs.join) := by
  induction cs with
  | nil => intro acc h; simp [utils_inflate_loop]
  | cons c cs ih =>
    intro acc h
    have hx : ¬ MAX_DECOMPRESSED_SIZE < (acc ++ c).length := by
      simp at h ⊢; omega
    rw [show utils_inflate_loop (c :: cs) acc =
        if MAX_DECOMPRESSED_SIZE < (acc ++ c).length then
          .error "Decompressed data exceeds maximum allowed size"
        else utils_inflate_loop cs (acc ++ c) from rfl,
      if_neg hx, ih (acc ++ c) (by simp at h ⊢; omega)]
    simp

lemma flatten_replicate_length (m : Nat) (c : Char) :
    ∀ n, ((List.replicate n (List.replicate m c) ++ [[c]]).join).length
      = n * m + 1 := by
  intro n
  induction n with
  | zero => simp
  | succ n ih =>
    rw [List.replicate_succ, List.cons_append,
      show ((List.replicate m c :: (List.replicate n (List.replicate m c)
        ++ [[c]])).join) = List.replicate m c ++
        (List.replicate n (List.replicate m c) ++ [[c]]).join from rfl,
      List.length_append, ih, List.length_replicate]
    ring

lemma big_chunks_length :
    ((List.replicate 3200 (List.replicate 32768 ('a' : Char)) ++
      [['a']]).join).length = 104857601 := by
  rw [flatten_replicate_length 32768 'a' 3200]

/-- C8: the decompression actually used on WARC records (`decompress_gzip`
in the indexer entry file) never enforces the 100 MiB bound — it returns the
full output for every well-formed stream; the bound is only enforced by the
unused `indexer::decompress_gzip` in utils.cpp, which errors exactly when
the decompressed size exceeds 100 MiB.  A stream decompressing to
100 MiB + 1 bytes shows the divergence. -/
theorem c8_decompression_bound_divergence :
    (∀ chunks : List (List Char), main_inflate_loop chunks [] = .ok chunks.join) ∧
    (∀ chunks : List (List Char),
      MAX_DECOMPRESSED_SIZE < chunks.join.length →
      utils_inflate_loop chunks [] =
        .error "Decompressed data exceeds maximum allowed size") ∧
    (∀ chunks : List (List Char),
      chunks.join.length ≤ MAX_DECOMPRESSED_SIZE →
      utils_inflate_loop chunks [] = .ok chunks.join) ∧
    MAX_DECOMPRESSED_SIZE <
      ((List.replicate 3200 (List.replicate 32768 ('a' : Char)) ++
        [['a']]).join).length := by
  refine ⟨?_, ?_, ?_, ?_⟩
  · intro chunks
    simpa using main_inflate_loop_ok chunks []
  · intro chunks h
    exact utils_inflate_loop_exceeds chunks [] (by simp [MAX_DECOMPRESSED_SIZE])
      (by simpa using h)
  · intro chunks h
    simpa using utils_inflate_loop_ok chunks [] (by simpa using h)
  · rw [big_chunks_length]
    norm_num [MAX_DECOMPRESSED_SIZE]

/-- C8 (witness): the hypotheses of the bound characterizations discharged
at concrete streams of 100 MiB + 1 bytes and of 2 bytes. -/
theorem c8_decompression_bound_divergence_witness :
    utils_inflate_loop (List.replicate 3200 (List.replicate 32768 ('a' : Char))
        ++ [['a']]) [] =
      .error "Decompressed data exceeds maximum allowed size" ∧
    utils_inflate_loop [['a', 'b']] [] = .ok ['a', 'b'] :=
  ⟨c8_decompression_bound_divergence.2.1 _
      (by rw [big_chunks_length]; norm_num [MAX_DECOMPRESSED_SIZE]),
   by
    have h := c8_decompression_bound_divergence.2.2.1 [['a', 'b']]
      (by simp [MAX_DECOMPRESSED_SIZE])
    simpa using h⟩

/-- C7: with both `DB_CONN_STR` and `DB_PASS` absent, the indexer entry
file's `build_db_conn_str` silently builds a connection string from the
default password `password123` and proceeds; only the unused
`indexer::build_db_conn_str` in utils.cpp fails fast as the spec requires. -/
theorem c7_db_pass_divergence :
    (∀ env : String → Option String,
      env "DB_CONN_STR" = none → env "DB_PASS" = none →
      build_db_conn_str_main env =
        "dbname=" ++ get_env_or_default env "DB_NAME" "search_engine" ++
          " user=" ++ get_env_or_default env "DB_USER" "admin" ++
          " password=" ++ "password123" ++
          " host=" ++ get_env_or_default env "DB_HOST" "postgres_service" ++
          " port=" ++ get_env_or_default env "DB_PORT" "5432" ∧
      build_db_conn_str_utils env =
        .error "DB_PASS environment variable is required") ∧
    build_db_conn_str_main (fun _ => none) =
      "dbname=search_engine user=admin password=password123 host=postgres_service port=5432" ∧
    build_db_conn_str_utils (fun _ => none) =
      .error "DB_PASS environment variable is required" := by
  refine ⟨?_, by decide, rfl⟩
  intro env h1 h2
  constructor
  · simp [build_db_conn_str_main, get_env_or_default, h1, h2]
  · simp [build_db_conn_str_utils, h1, h2]

/-- C7 (witness): the divergence conjunct applied to the empty environment. -/
theorem c7_db_pass_divergence_witness :
    build_db_conn_str_main (fun _ => none) =
      "dbname=" ++ get_env_or_default (fun _ => none) "DB_NAME" "search_engine" ++
        " user=" ++ get_env_or_default (fun _ => none) "DB_USER" "admin" ++
        " password=" ++ "password123" ++
        " host=" ++ get_env_or_default (fun _ => none) "DB_HOST" "postgres_service" ++
        " port=" ++ get_env_or_default (fun _ => none) "DB_PORT" "5432" ∧
    build_db_conn_str_utils (fun _ => none) =
      .error "DB_PASS environment variable is required" :=
  c7_db_pass_divergence.1 (fun _ => none) rfl rfl

lemma reserve_dup (docs : List DocRow) (url : List Char)
    (h : ∃ r ∈ docs, r.url = url) : reserve docs url = none := by
  have hany : docs.any (fun r => r.url == url) = true := by
    rw [List.any_eq_true]
    obtain ⟨r, hr, he⟩ := h
    exact ⟨r, hr, by simp [he]⟩
  simp [reserve, hany]

/-- C9: when the popped URL is already present in the documents table, the
reserve step returns nothing and the iteration leaves the state byte-for-byte
unchanged and performs no fetch (no event), no insert, and no WARC append. -/
theorem c9_duplicate_url_skip (fetch compress : List Char → List Char)
    (date uuid basename : List Char) (st : CrawlState) (url : List Char)
    (hdup : ∃ r ∈ st.docs, r.url = url) :
    crawler_step fetch compress date uuid basename st url = (st, []) ∧
    reserve st.docs url = none := by
  have hres := reserve_dup st.docs url hdup
  refine ⟨?_, hres⟩
  by_cases hv : is_valid_url url
  · simp [crawler_step, hv, hres]
  · simp [crawler_step, hv]

/-- C9 (witness): a table already holding `https://x/` and the same URL
popped again. -/
theorem c9_duplicate_url_skip_witness :
    crawler_step id id [] [] []
        ⟨[⟨1, "https://x/".data, .crawled, none, none, none⟩], [], []⟩
        "https://x/".data =
      (⟨[⟨1, "https://x/".data, .crawled, none, none, none⟩], [], []⟩, []) ∧
    reserve [⟨1, "https://x/".data, .crawled, none, none, none⟩]
      "https://x/".data = none :=
  c9_duplicate_url_skip id id [] [] [] _ _ (by decide)

lemma dropWhile_append_all {p : Char → Bool} {l₁ : List Char}
    (h : ∀ c ∈ l₁, p c = true) (l₂ : List Char) :
    (l₁ ++ l₂).dropWhile p = l₂.dropWhile p := by
  induction l₁ with
  | nil => simp
  | cons c cs ih =>
    rw [List.cons_append, List.dropWhile_cons, if_pos (h c (by simp))]
    exact ih (fun x hx => h x (by simp [hx]))

lemma dropWhile_head_false {p : Char → Bool} {l : List Char}
    (h : ∀ c, l.head? = some c → p c = false) : l.dropWhile p = l := by
  cases l with
  | nil => rfl
  | cons c cs =>
    rw [List.dropWhile_cons, if_neg]
    simp [h c rfl]

lemma takeWhile_append_all {p : Char → Bool} {l₁ : List Char}
    (h : ∀ c ∈ l₁, p c = true) {l₂ : List Char}
    (h2 : ∀ c, l₂.head? = some c → p c = false) :
    (l₁ ++ l₂).takeWhile p = l₁ := by
  induction l₁ with
  | nil =>
    cases l₂ with
    | nil => rfl
    | cons c cs => simp [List.takeWhile_cons, h2 c rfl]
  | cons c cs ih =>
    rw [List.cons_append, List.takeWhile_cons, if_pos (h c (by simp))]
    rw [ih (fun x hx => h x (by simp [hx]))]

lemma isSpaceC_eq_false_of_digit {c : Char} (h : c.isDigit = true) :
    isSpaceC c = false := by
  cases hb : isSpaceC c with
  | false => rfl
  | true =>
    exfalso
    simp [isSpaceC] at hb
    rcases hb with ((((rfl | rfl) | rfl) | rfl) | rfl) | rfl <;>
      exact absurd h (by decide)

lemma digit_ne_sign {c : Char} (h : c.isDigit = true) :
    c ≠ '-' ∧ c ≠ '+' := by
  constructor <;> rintro rfl <;> exact absurd h (by decide)

lemma cppStoi_decomp (ws sg digits rest : List Char)
    (hws : ∀ c ∈ ws, isSpaceC c = true)
    (hsg : sg = [] ∨ sg = ['+'] ∨ sg = ['-'])
    (hne : digits ≠ [])
    (hdig : ∀ c ∈ digits, c.isDigit = true)
    (hrest : ∀ c, rest.head? = some c → c.isDigit = false) :
    cppStoi (ws ++ sg ++ digits ++ rest) =
      (if -2147483648 ≤ ((if sg = ['-'] then (-1 : Int) else 1) *
            (natOfDigits digits : Int)) ∧
          ((if sg = ['-'] then (-1 : Int) else 1) *
            (natOfDigits digits : Int)) ≤ 2147483647
       then some ((if sg = ['-'] then (-1 : Int) else 1) *
            (natOfDigits digits : Int))
       else none) := by
  obtain ⟨d, ds, rfl⟩ := List.exists_cons_of_ne_nil hne
  have hd : d.isDigit = true := hdig d (by simp)
  have hdsp : isSpaceC d = false := isSpaceC_eq_false_of_digit hd
  have hdsign := digit_ne_sign hd
  have htake : ((d :: ds) ++ rest).takeWhile Char.isDigit = d :: ds :=
    takeWhile_append_all hdig hrest
  have htake' : (d :: (ds ++ rest)).takeWhile Char.isDigit = d :: ds := by
    simpa using htake
  have htake2 : (ds ++ rest).takeWhile Char.isDigit = ds :=
    takeWhile_append_all (fun c hc => hdig c (by simp [hc])) hrest
  rcases hsg with rfl | rfl | rfl
  · have hdrop : (ws ++ [] ++ (d :: ds) ++ rest).dropWhile isSpaceC =
        d :: (ds ++ rest) := by
      rw [show ws ++ [] ++ (d :: ds) ++ rest = ws ++ (d :: (ds ++ rest))
        from by simp, dropWhile_append_all hws]
      exact dropWhile_head_false (fun c hc => by
        simp at hc; subst hc; exact hdsp)
    unfold cppStoi
    rw [hdrop]
    simp [hdsign.1, hdsign.2, htake', hd]
  · have hdrop : (ws ++ ['+'] ++ (d :: ds) ++ rest).dropWhile isSpaceC =
        '+' :: ((d :: ds) ++ rest) := by
      rw [show ws ++ ['+'] ++ (d :: ds) ++ rest =
        ws ++ ('+' :: ((d :: ds) ++ rest)) from by simp,
        dropWhile_append_all hws]
      exact dropWhile_head_false (fun c hc => by
        simp at hc; subst hc; decide)
    unfold cppStoi
    rw [hdrop]
    simp [htake, htake2, hd]
  · have hdrop : (ws ++ ['-'] ++ (d :: ds) ++ rest).dropWhile isSpaceC =
        '-' :: ((d :: ds) ++ rest) := by
      rw [show ws ++ ['-'] ++ (d :: ds) ++ rest =
        ws ++ ('-' :: ((d :: ds) ++ rest)) from by simp,
        dropWhile_append_all hws]
      exact dropWhile_head_false (fun c hc => by
        simp at hc; subst hc; decide)
    unfold cppStoi
    rw [hdrop]
    simp [htake, htake2, hd]

/-- C10: a popped queue string is accepted iff after optional C-locale
whitespace and one optional sign it starts with a decimal digit and the
signed value of the maximal digit run fits in 32-bit int; the digit-run
value is used as the document id even when garbage follows ("7abc" → 7);
strings without such a prefix (or out of range) yield none and are dropped
without touching the database or the index. -/
theorem c10_queue_id_parse :
    cppStoi "7abc".data = some 7 ∧
    cppStoi " +42xyz".data = some 42 ∧
    cppStoi "-0012".data = some (-12) ∧
    cppStoi "abc".data = none ∧
    cppStoi [] = none ∧
    cppStoi "2147483648".data = none ∧
    (∀ ws sg digits rest : List Char,
      (∀ c ∈ ws, isSpaceC c = true) →
      (sg = [] ∨ sg = ['+'] ∨ sg = ['-']) →
      digits ≠ [] →
      (∀ c ∈ digits, c.isDigit = true) →
      (∀ c, rest.head? = some c → c.isDigit = false) →
      cppStoi (ws ++ sg ++ digits ++ rest) =
        (if -2147483648 ≤ ((if sg = ['-'] then (-1 : Int) else 1) *
              (natOfDigits digits : Int)) ∧
            ((if sg = ['-'] then (-1 : Int) else 1) *
              (natOfDigits digits : Int)) ≤ 2147483647
         then some ((if sg = ['-'] then (-1 : Int) else 1) *
              (natOfDigits digits : Int))
         else none)) ∧
    (∀ s : List Char,
      ((if (s.dropWhile isSpaceC).head? = some '-' ∨
          (s.dropWhile isSpaceC).head? = some '+'
        then (s.dropWhile isSpaceC).tail
        else s.dropWhile isSpaceC).takeWhile Char.isDigit = []) →
      cppStoi s = none) := by
  refine ⟨by decide, by decide, by decide, by decide, by decide, by decide,
    cppStoi_decomp, ?_⟩
  intro s h
  unfold cppStoi
  dsimp only
  rw [h]
  simp

/-- C10 (witness): the decomposition conjunct at `" -42xyz"` and the
no-digit-prefix conjunct at `"zz"`. -/
theorem c10_queue_id_parse_witness :
    cppStoi ([' '] ++ ['-'] ++ "42".data ++ "xyz".data) =
      (if -2147483648 ≤ ((if (['-'] : List Char) = ['-'] then (-1 : Int) else 1) *
            (natOfDigits "42".data : Int)) ∧
          ((if (['-'] : List Char) = ['-'] then (-1 : Int) else 1) *
            (natOfDigits "42".data : Int)) ≤ 2147483647
       then some ((if (['-'] : List Char) = ['-'] then (-1 : Int) else 1) *
            (natOfDigits "42".data : Int))
       else none) ∧
    cppStoi "zz".data = none :=
  ⟨c10_queue_id_parse.2.2.2.2.2.2.1 [' '] ['-'] "42".data "xyz".data
      (by decide) (by decide) (by decide) (by decide)
      (fun c hc => by simp at hc; subst hc; decide),
   c10_queue_id_parse.2.2.2.2.2.2.2 "zz".data (by decide)⟩

lemma lexLt_trans : ∀ {a b c : List Char},
    lexLt a b = true → lexLt b c = true → lexLt a c = true := by
  intro a
  induction a with
  | nil =>
    intro b c hab hbc
    cases b with
    | nil => simp [lexLt] at hab
    | cons y ys =>
      cases c with
      | nil => simp [lexLt] at hbc
      | cons z zs => simp [lexLt]
  | cons x xs ih =>
    intro b c hab hbc
    cases b with
    | nil => simp [lexLt] at hab
    | cons y ys =>
      cases c with
      | nil => simp [lexLt] at hbc
      | cons z zs =>
        by_cases h1 : x < y
        · by_cases h2 : y < z
          · simp [lexLt, lt_trans h1 h2]
          · by_cases h3 : z < y
            · simp [lexLt, h2, h3] at hbc
            · have hyz : y = z := le_antisymm (le_of_not_lt h3) (le_of_not_lt h2)
              subst hyz
              simp [lexLt, h1]
        · by_cases h1' : y < x
          · simp [lexLt, h1, h1'] at hab
          · have hxy : x = y := le_antisymm (le_of_not_lt h1') (le_of_not_lt h1)
            subst hxy
            simp only [lexLt, if_neg h1, if_neg h1', if_neg (lt_irrefl x)] at hab
            by_cases h2 : x < z
            · simp [lexLt, h2]
            · by_cases h3 : z < x
              · simp [lexLt, h2, h3] at hbc
              · have hxz : x = z := le_antisymm (le_of_not_lt h3) (le_of_not_lt h2)
                subst hxz
                simp only [lexLt, if_neg h2, if_neg h3,
                  if_neg (lt_irrefl x)] at hbc ⊢
                exact ih hab hbc

lemma lexLt_connex : ∀ {a b : List Char},
    a ≠ b → lexLt a b = true ∨ lexLt b a = true := by
  intro a
  induction a with
  | nil =>
    intro b h
    cases b with
    | nil => exact absurd rfl h
    | cons y ys => left; simp [lexLt]
  | cons x xs ih =>
    intro b h
    cases b with
    | nil => right; simp [lexLt]
    | cons y ys =>
      by_cases h1 : x < y
      · left; simp [lexLt, h1]
      · by_cases h2 : y < x
        · right; simp [lexLt, h2]
        · have hxy : x = y := le_antisymm (le_of_not_lt h2) (le_of_not_lt h1)
          subst hxy
          have hne : xs ≠ ys := fun he => h (by rw [he])
          rcases ih hne with hl | hr
          · left; simp [lexLt, lt_irrefl, hl]
          · right; simp [lexLt, lt_irrefl, hr]

lemma mem_setInsert {x y : List Char} : ∀ {l : List (List Char)},
    y ∈ setInsert x l ↔ y = x ∨ y ∈ l := by
  intro l
  induction l with
  | nil => simp [setInsert]
  | cons z zs ih =>
    unfold setInsert
    by_cases h1 : lexLt x z = true
    · simp [h1]
    · by_cases h2 : x = z
      · subst h2
        simp [h1]
      · simp [h1, h2, ih]
        tauto

lemma pairwise_setInsert {x : List Char} : ∀ {l : List (List Char)},
    List.Pairwise (fun a b => lexLt a b = true) l →
    List.Pairwise (fun a b => lexLt a b = true) (setInsert x l) := by
  intro l
  induction l with
  | nil => intro _; simp [setInsert]
  | cons z zs ih =>
    intro h
    rcases List.pairwise_cons.1 h with ⟨hz, hzs⟩
    unfold setInsert
    by_cases h1 : lexLt x z = true
    · rw [if_pos h1, List.pairwise_cons]
      refine ⟨?_, h⟩
      intro w hw
      rcases List.mem_cons.1 hw with rfl | hw'
      · exact h1
      · exact lexLt_trans h1 (hz w hw')
    · rw [if_neg h1]
      by_cases h2 : x = z
      · rw [if_pos h2]; exact h
      · rw [if_neg h2, List.pairwise_cons]
        refine ⟨?_, ih hzs⟩
        intro w hw
        rcases mem_setInsert.1 hw with rfl | hw'
        · rcases lexLt_connex h2 with hc | hc
          · exact absurd hc h1
          · exact hc
        · exact hz w hw'

lemma pairwise_foldl_setInsert : ∀ (l : List (List Char)) (acc : List (List Char)),
    List.Pairwise (fun a b => lexLt a b = true) acc →
    List.Pairwise (fun a b => lexLt a b = true)
      (l.foldl (fun s x => setInsert x s) acc) := by
  intro l
  induction l with
  | nil => intro acc h; simpa using h
  | cons x xs ih =>
    intro acc h
    rw [List.foldl_cons]
    exact ih (setInsert x acc) (pairwise_setInsert h)

lemma pairwise_setOfList (l : List (List Char)) :
    List.Pairwise (fun a b => lexLt a b = true) (setOfList l) :=
  pairwise_foldl_setInsert l [] (by simp)

lemma mem_foldl_setInsert : ∀ (l : List (List Char)) (acc : List (List Char))
    (y : List Char),
    y ∈ l.foldl (fun s x => setInsert x s) acc ↔ y ∈ acc ∨ y ∈ l := by
  intro l
  induction l with
  | nil => intro acc y; simp
  | cons x xs ih =>
    intro acc y
    rw [List.foldl_cons, ih, mem_setInsert]
    simp
    tauto

lemma mem_setOfList {y : List Char} {l : List (List Char)} :
    y ∈ setOfList l ↔ y ∈ l := by
  rw [setOfList, mem_foldl_setInsert]
  simp

lemma splitC_cons_eq (c : Char) (cs : List Char) :
    splitC (c :: cs) =
      if c = ',' then [] :: splitC cs
      else
        match splitC cs with
        | [] => [[c]]
        | h :: t => (c :: h) :: t := rfl

lemma splitC_ne_nil : ∀ s : List Char, splitC s ≠ [] := by
  intro s
  induction s with
  | nil => simp [splitC]
  | cons c cs ih =>
    rw [splitC_cons_eq]
    by_cases hc : c = ','
    · simp [hc]
    · rw [if_neg hc]
      cases hr : splitC cs with
      | nil => simp
      | cons h t => simp

lemma splitC_nocomma : ∀ s : List Char, ∀ seg ∈ splitC s, ',' ∉ seg := by
  intro s
  induction s with
  | nil =>
    intro seg h
    simp [splitC] at h
    simp [h]
  | cons c cs ih =>
    intro seg hseg
    rw [splitC_cons_eq] at hseg
    by_cases hc : c = ','
    · rw [if_pos hc] at hseg
      rcases List.mem_cons.1 hseg with rfl | hseg'
      · simp
      · exact ih seg hseg'
    · rw [if_neg hc] at hseg
      cases hr : splitC cs with
      | nil =>
        rw [hr] at hseg
        simp at hseg
        subst hseg
        intro hmem
        simp at hmem
        exact hc hmem.symm
      | cons h t =>
        rw [hr] at hseg
        rcases List.mem_cons.1 hseg with rfl | hseg'
        · intro hmem
          rcases List.mem_cons.1 hmem with he | hmem'
          · exact hc he.symm
          · exact ih h (by rw [hr]; simp) hmem'
        · exact ih seg (by rw [hr]; simp [hseg'])

lemma splitC_append_nocomma : ∀ (a : List Char), ',' ∉ a →
    ∀ (t h0 : List Char) (t0 : List (List Char)),
      splitC t = h0 :: t0 → splitC (a ++ t) = (a ++ h0) :: t0 := by
  intro a
  induction a with
  | nil => intro _ t h0 t0 hsp; simpa using hsp
  | cons c cs ih =>
    intro h t h0 t0 hsp
    have hc : c ≠ ',' := fun he => h (by simp [he])
    have hcs : ',' ∉ cs := fun hm => h (by simp [hm])
    rw [List.cons_append, splitC_cons_eq, if_neg hc, ih hcs t h0 t0 hsp]
    rfl

lemma joinComma_cons_cons (x y : List Char) (ys : List (List Char)) :
    joinComma (x :: y :: ys) = x ++ ',' :: joinComma (y :: ys) := rfl

lemma splitC_joinComma : ∀ l : List (List Char), l ≠ [] →
    (∀ x ∈ l, ',' ∉ x) → splitC (joinComma l) = l := by
  intro l
  induction l with
  | nil => intro h; exact absurd rfl h
  | cons x xs ih =>
    intro _ hcf
    cases xs with
    | nil =>
      have := splitC_append_nocomma x (hcf x (by simp)) [] [] []
        (by simp [splitC])
      simpa [joinComma] using this
    | cons y ys =>
      have h2 : splitC (joinComma (y :: ys)) = y :: ys :=
        ih (by simp) (fun z hz => hcf z (by simp [hz]))
      have h1 : splitC (',' :: joinComma (y :: ys)) =
          [] :: y :: ys := by
        rw [splitC_cons_eq, if_pos rfl, h2]
      have := splitC_append_nocomma x (hcf x (by simp))
        (',' :: joinComma (y :: ys)) [] (y :: ys) h1
      rw [joinComma_cons_cons]
      simpa using this

lemma joinComma_ne_nil_of_mem : ∀ (l : List (List Char)) (x : List Char),
    x ∈ l → x ≠ [] → joinComma l ≠ [] := by
  intro l x hx hxne
  cases l with
  | nil => simp at hx
  | cons a as =>
    cases as with
    | nil =>
      simp at hx
      subst hx
      simpa [joinComma] using hxne
    | cons b bs =>
      rw [joinComma_cons_cons]
      simp

lemma mem_getlineSplit_joinComma (l : List (List Char)) (ds : List Char)
    (hmem : ds ∈ l) (hne : ds ≠ []) (hcf : ∀ x ∈ l, ',' ∉ x) :
    ds ∈ getlineSplit (joinComma l) := by
  have hlne : l ≠ [] := by rintro rfl; simp at hmem
  unfold getlineSplit
  rw [splitC_joinComma l hlne hcf]
  by_cases hlast : l.getLast? = some []
  · rw [if_pos hlast]
    have hgl : l.getLast hlne = [] := by
      rwa [List.getLast?_eq_getLast l hlne, Option.some.injEq] at hlast
    have hsplit := List.dropLast_append_getLast hlne
    rw [← hsplit] at hmem
    rcases List.mem_append.1 hmem with h | h
    · exact h
    · simp [hgl] at h
      exact absurd h hne
  · rw [if_neg hlast]
    exact hmem

lemma decode_nocomma (v : Option (List Char)) :
    ∀ x ∈ decodePosting v, ',' ∉ x := by
  intro x hx
  cases v with
  | none => simp [decodePosting] at hx
  | some s =>
    rw [show decodePosting (some s) =
      if s ≠ [] then setOfList (getlineSplit s) else [] from rfl] at hx
    by_cases hs : s ≠ []
    · rw [if_pos hs] at hx
      have hx2 : x ∈ getlineSplit s := mem_setOfList.1 hx
      unfold getlineSplit at hx2
      by_cases hl : (splitC s).getLast? = some []
      · rw [if_pos hl] at hx2
        exact splitC_nocomma s x (List.dropLast_subset _ hx2)
      · rw [if_neg hl] at hx2
        exact splitC_nocomma s x hx2
    · rw [if_neg hs] at hx
      simp at hx

lemma decode_pairwise (v : Option (List Char)) :
    List.Pairwise (fun a b => lexLt a b = true) (decodePosting v) := by
  cases v with
  | none => simp [decodePosting]
  | some s =>
    rw [show decodePosting (some s) =
      if s ≠ [] then setOfList (getlineSplit s) else [] from rfl]
    by_cases hs : s ≠ []
    · rw [if_pos hs]; exact pairwise_setOfList _
    · rw [if_neg hs]; simp

lemma decCharsAux_digit (fuel : Nat) :
    ∀ (n : Nat), ∀ c ∈ decCharsAux fuel n, c.isDigit = true := by
  induction fuel with
  | zero => intro n c hc; simp [decCharsAux] at hc
  | succ fuel ih =>
    intro n c hc
    by_cases h : n < 10
    · simp [decCharsAux, h] at hc
      subst hc
      interval_cases n <;> decide
    · simp [decCharsAux, h] at hc
      rcases hc with hc | hc
      · exact ih _ c hc
      · subst hc
        have h10 : n % 10 < 10 := Nat.mod_lt _ (by omega)
        set k := n % 10 with hk
        interval_cases k <;> decide

lemma decChars_nocomma (n : Nat) : ',' ∉ decChars n := by
  intro h
  exact absurd (decCharsAux_digit (n + 1) n ',' h) (by decide)

lemma decChars_ne_nil (n : Nat) : decChars n ≠ [] := by
  unfold decChars decCharsAux
  by_cases h : n < 10 <;> simp [h]

lemma mergeStep_skip {store : KVStore} {t : List Char} {d : Nat}
    (h : decChars d ∈ decodePosting (store t)) :
    mergeStep store t d = (store, false) := by
  unfold mergeStep
  dsimp only
  rw [if_pos h]

lemma mergeStep_write {store : KVStore} {t : List Char} {d : Nat}
    (h : decChars d ∉ decodePosting (store t)) :
    mergeStep store t d =
      (fun k => if k = t then
          some (joinComma (setInsert (decChars d) (decodePosting (store t))))
        else store k, true) := by
  unfold mergeStep
  dsimp only
  rw [if_neg h]

lemma mem_decode_insert (store : KVStore) (t : List Char) (d : Nat) :
    decChars d ∈ decodePosting (some (joinComma
      (setInsert (decChars d) (decodePosting (store t))))) := by
  have hmem : decChars d ∈ setInsert (decChars d) (decodePosting (store t)) :=
    mem_setInsert.2 (Or.inl rfl)
  have hcf : ∀ x ∈ setInsert (decChars d) (decodePosting (store t)),
      ',' ∉ x := by
    intro x hx
    rcases mem_setInsert.1 hx with rfl | hx'
    · exact decChars_nocomma d
    · exact decode_nocomma _ x hx'
  rw [show decodePosting (some (joinComma
      (setInsert (decChars d) (decodePosting (store t))))) =
    if joinComma (setInsert (decChars d) (decodePosting (store t))) ≠ [] then
      setOfList (getlineSplit (joinComma
        (setInsert (decChars d) (decodePosting (store t)))))
    else [] from rfl,
    if_pos (joinComma_ne_nil_of_mem _ _ hmem (decChars_ne_nil d))]
  exact mem_setOfList.2
    (mem_getlineSplit_joinComma _ _ hmem (decChars_ne_nil d) hcf)

/-- C2: re-merging the same (token, doc id) is a byte-level no-op: the second
application of the merge step leaves the store exactly as the first; when the
id is already in the decoded posting set no Put happens and the store is
returned unchanged; every value written is the comma-join of a strictly
lexicographically ascending duplicate-free list consisting of the decimal id
and the decoded previous ids; and merging (cat,7), (cat,3), (cat,7) from
empty stores "7" then "3,7", decoding to {3,7}, with the third merge
performing no write. -/
theorem c2_merge_idempotent_canonical :
    (∀ (store : KVStore) (t : List Char) (d : Nat),
      (mergeStep (mergeStep store t d).1 t d).1 = (mergeStep store t d).1) ∧
    (∀ (store : KVStore) (t : List Char) (d : Nat),
      decChars d ∈ decodePosting (store t) →
      mergeStep store t d = (store, false)) ∧
    (∀ (store : KVStore) (t : List Char) (d : Nat),
      (mergeStep store t d).2 = true →
      ∃ l, List.Pairwise (fun a b => lexLt a b = true) l ∧
        (mergeStep store t d).1 t = some (joinComma l) ∧
        (∀ x, x ∈ l ↔ x = decChars d ∨ x ∈ decodePosting (store t))) ∧
    (mergeStep (fun _ => none) "cat".data 7).1 "cat".data = some "7".data ∧
    (mergeStep (mergeStep (fun _ => none) "cat".data 7).1 "cat".data 3).1
      "cat".data = some "3,7".data ∧
    decodePosting (some "3,7".data) = ["3".data, "7".data] ∧
    mergeStep (mergeStep (mergeStep (fun _ => none) "cat".data 7).1
        "cat".data 3).1 "cat".data 7 =
      ((mergeStep (mergeStep (fun _ => none) "cat".data 7).1 "cat".data 3).1,
        false) := by
  refine ⟨?_, fun _ _ _ h => mergeStep_skip h, ?_, by decide, by decide,
    by decide, mergeStep_skip (by decide)⟩
  · intro store t d
    by_cases h : decChars d ∈ decodePosting (store t)
    · simp [mergeStep_skip h]
    · rw [mergeStep_write h]
      have hm : decChars d ∈ decodePosting ((fun k =>
          if k = t then
            some (joinComma (setInsert (decChars d) (decodePosting (store t))))
          else store k) t) := by
        simp only [if_pos rfl]
        exact mem_decode_insert store t d
      rw [show ((fun k =>
          if k = t then
            some (joinComma (setInsert (decChars d) (decodePosting (store t))))
          else store k, true) : KVStore × Bool).1 = fun k =>
          if k = t then
            some (joinComma (setInsert (decChars d) (decodePosting (store t))))
          else store k from rfl, mergeStep_skip hm]
  · intro store t d h2
    by_cases h : decChars d ∈ decodePosting (store t)
    · rw [mergeStep_skip h] at h2
      simp at h2
    · refine ⟨setInsert (decChars d) (decodePosting (store t)),
        pairwise_setInsert (decode_pairwise _), ?_, ?_⟩
      · rw [mergeStep_write h]
        simp
      · intro x
        rw [mem_setInsert]

/-- C2 (witness): the skip conjunct applied to the store after merging
(cat,7) then (cat,3), and the canonical-write conjunct applied to the empty
store, both with their hypotheses discharged concretely. -/
theorem c2_merge_idempotent_canonical_witness :
    mergeStep (mergeStep (mergeStep (fun _ => none) "cat".data 7).1
        "cat".data 3).1 "cat".data 7 =
      ((mergeStep (mergeStep (fun _ => none) "cat".data 7).1 "cat".data 3).1,
        false) ∧
    (∃ l, List.Pairwise (fun a b => lexLt a b = true) l ∧
      (mergeStep (fun _ => none) "cat".data 7).1 "cat".data =
        some (joinComma l) ∧
      (∀ x, x ∈ l ↔ x = decChars 7 ∨
        x ∈ decodePosting ((fun _ => none : KVStore) "cat".data))) :=
  ⟨c2_merge_idempotent_canonical.2.1 _ "cat".data 7 (by decide),
   c2_merge_idempotent_canonical.2.2.1 (fun _ => none) "cat".data 7 (by decide)⟩
